import Mathlib

/-!
Shallow embedding of `src/graphics.rs` of the potatOS repository, together
with theorems settling the specification claims about it.

Modelling conventions:

* `u8` values and `usize` values are modelled as `Nat`; where `u8` overflow
  matters (the `<<` in the glyph test) the wrap is written explicitly as
  `% 256`.
* The frame buffer's raw base pointer is left implicit: a call to
  `draw_pixel` is modelled by the ordered list of volatile byte writes it
  performs, each write recorded as a pair `(byte offset from the base,
  value written)`.  The order of the list is the order in which the writes
  are issued.
* The shape primitives `fill_rect` / `draw_rect` and the font renderer are
  generic over the `PixelWriter` trait and only ever touch the buffer
  through `draw_pixel`; they are modelled by the ordered list of
  `draw_pixel` invocations they make, each recorded as `(x, y, color)`.
* The glyph table (`include_bytes!` of `assets/hankaku.bin`, a binary asset
  not part of the source tree) is modelled as the `font : List Nat` field
  of `ShinonomeFont`, each entry one `u8` of the table.
* Rust's `char as usize` is `Char.toNat`; `s.chars().enumerate()` is
  `List.enum` on the list of characters.
-/

set_option maxRecDepth 8192
set_option linter.unusedVariables false

namespace Graphics

/-- Color value: three 8-bit channels (`PixelColor`, graphics.rs lines 2-7). -/
structure PixelColor where
  red : Nat
  green : Nat
  blue : Nat
deriving DecidableEq, Repr

/-- Named color constant (graphics.rs lines 10-12). -/
def PixelColor.BLACK : PixelColor := ⟨0, 0, 0⟩

/-- Named color constant (graphics.rs lines 13-15). -/
def PixelColor.WHITE : PixelColor := ⟨255, 255, 255⟩

/-- Named color constant (graphics.rs lines 16-18). -/
def PixelColor.RED : PixelColor := ⟨255, 0, 0⟩

/-- Named color constant (graphics.rs lines 19-21). -/
def PixelColor.GREEN : PixelColor := ⟨0, 255, 0⟩

/-- Named color constant (graphics.rs lines 22-24). -/
def PixelColor.BLUE : PixelColor := ⟨0, 0, 255⟩

/-- Constructor `PixelColor::new` (graphics.rs lines 25-31). -/
def PixelColor.new (r g b : Nat) : PixelColor := ⟨r, g, b⟩

/-- Pixel format tag (`PixelFormat`, graphics.rs lines 34-39). -/
inductive PixelFormat where
  | PixelRGBResv8BitPerColor
  | PixelBGRResv8BitPerColor
deriving DecidableEq, Repr

/-- Frame buffer descriptor (`FrameBuffer`, graphics.rs lines 64-72).  The
raw `frame_buffer: *mut u8` base pointer is implicit; byte writes are
recorded as offsets from it. -/
structure FrameBuffer where
  pixel_per_scan_line : Nat
  horizontal_resolution : Nat
  vertical_resolution : Nat
  pixel_format : PixelFormat
deriving DecidableEq, Repr

/-- Accessor `FrameBuffer::h` (graphics.rs lines 85-87). -/
def FrameBuffer.h (self : FrameBuffer) : Nat := self.horizontal_resolution

/-- Accessor `FrameBuffer::v` (graphics.rs lines 89-91). -/
def FrameBuffer.v (self : FrameBuffer) : Nat := self.vertical_resolution

/-- One volatile byte write: `(byte offset from the buffer base, value)`. -/
abbrev ByteWrite := Nat × Nat

/-- Dispatching pixel write, `impl PixelWriter for FrameBuffer`
(graphics.rs lines 106-116): computes `pixel_position = stride*y + x`,
selects the channel array by the stored format tag, and issues one volatile
byte write per channel at offsets `4*pixel_position + i` in iteration
order. -/
def FrameBuffer.draw_pixel (self : FrameBuffer) (x y : Nat) (color : PixelColor) :
    List ByteWrite :=
  let pixel_position := self.pixel_per_scan_line * y + x
  let color_data := match self.pixel_format with
    | PixelFormat.PixelRGBResv8BitPerColor => [color.red, color.green, color.blue]
    | PixelFormat.PixelBGRResv8BitPerColor => [color.blue, color.green, color.red]
  color_data.enum.map (fun p => (4 * pixel_position + p.1, p.2))

/-- Monomorphic RGB writer (`RGBResv8BitPerColorPixelWriter`,
graphics.rs lines 148-150). -/
structure RGBResv8BitPerColorPixelWriter where
  frame_buffer : FrameBuffer

/-- Constructor (graphics.rs lines 153-155). -/
def RGBResv8BitPerColorPixelWriter.new (frame_buffer : FrameBuffer) :
    RGBResv8BitPerColorPixelWriter := ⟨frame_buffer⟩

/-- Pixel write of the RGB writer (graphics.rs lines 165-172): fixed
channel array `[red, green, blue]`. -/
def RGBResv8BitPerColorPixelWriter.draw_pixel (self : RGBResv8BitPerColorPixelWriter)
    (x y : Nat) (color : PixelColor) : List ByteWrite :=
  let pixel_position := self.frame_buffer.pixel_per_scan_line * y + x
  let color_data := [color.red, color.green, color.blue]
  color_data.enum.map (fun p => (4 * pixel_position + p.1, p.2))

/-- Monomorphic BGR writer (`BGRResv8BitPerColorPixelWriter`,
graphics.rs lines 175-177). -/
structure BGRResv8BitPerColorPixelWriter where
  frame_buffer : FrameBuffer

/-- Constructor (graphics.rs lines 180-182). -/
def BGRResv8BitPerColorPixelWriter.new (frame_buffer : FrameBuffer) :
    BGRResv8BitPerColorPixelWriter := ⟨frame_buffer⟩

/-- Pixel write of the BGR writer (graphics.rs lines 193-200): fixed
channel array `[blue, green, red]`. -/
def BGRResv8BitPerColorPixelWriter.draw_pixel (self : BGRResv8BitPerColorPixelWriter)
    (x y : Nat) (color : PixelColor) : List ByteWrite :=
  let pixel_position := self.frame_buffer.pixel_per_scan_line * y + x
  let color_data := [color.blue, color.green, color.red]
  color_data.enum.map (fun p => (4 * pixel_position + p.1, p.2))

/-- 2D vector (`Vector2D<T>`, graphics.rs lines 258-261), instantiated at
`T = usize` as the drawing operations use it. -/
structure Vector2D where
  x : Nat
  y : Nat
deriving DecidableEq, Repr

/-- One `draw_pixel` invocation: `(x, y, color)`. -/
abbrev PixelEvent := Nat × Nat × PixelColor

/-- Trait default `PixelWriter::fill_rect` (graphics.rs lines 128-134):
`for dy in 0..size.y { for dx in 0..size.x { draw_pixel(pos.x+dx, pos.y+dy, color) } }`,
modelled as the ordered list of `draw_pixel` invocations. -/
def PixelWriter.fill_rect (pos size : Vector2D) (color : PixelColor) : List PixelEvent :=
  (List.range size.y).flatMap (fun dy =>
    (List.range size.x).map (fun dx => (pos.x + dx, pos.y + dy, color)))

/-- Trait default `PixelWriter::draw_rect` (graphics.rs lines 136-145):
first loop over `dx in 0..size.x` drawing `(pos.x+dx, pos.y)` and
`(pos.x+dx, pos.y+size.y)`, then loop over `dy in 0..size.y` drawing
`(pos.x, pos.y+dy)` and `(pos.x+size.x, pos.y+dy)`. -/
def PixelWriter.draw_rect (pos size : Vector2D) (color : PixelColor) : List PixelEvent :=
  ((List.range size.x).flatMap (fun dx =>
    [(pos.x + dx, pos.y, color), (pos.x + dx, pos.y + size.y, color)]))
  ++ ((List.range size.y).flatMap (fun dy =>
    [(pos.x, pos.y + dy, color), (pos.x + size.x, pos.y + dy, color)]))

/-- Bitmap font backed by the embedded glyph table
(`ShinonomeFont`, graphics.rs lines 213-215); the table is a parameter
since the binary asset is external to the source. -/
structure ShinonomeFont where
  font : List Nat

/-- Method `char_size` (graphics.rs lines 218-220). -/
def ShinonomeFont.char_size (_self : ShinonomeFont) : Nat × Nat := (8 + 2, 16 + 2)

/-- Glyph renderer `ShinonomeFont::write_ascii` (graphics.rs lines 221-239):
`index = 16 * (c as usize)`; if `index >= font.len()` return with no
writes; otherwise for each row `dy in 0..16` and column `dx in 0..8`, draw
the foreground pixel at `(x+dx, y+dy)` when
`(font[index+dy] << dx) & 0x80 > 0` (the `u8` shift wraps, hence `% 256`).
The `bg` parameter is accepted but unused (its use is commented out in the
source). -/
def ShinonomeFont.write_ascii (self : ShinonomeFont) (x y : Nat) (c : Char)
    (fg bg : PixelColor) : List PixelEvent :=
  let index := 16 * c.toNat
  if index ≥ self.font.length then []
  else
    (List.range 16).flatMap (fun dy =>
      (List.range 8).flatMap (fun dx =>
        if ((self.font.getD (index + dy) 0) <<< dx) % 256 &&& 0x80 > 0 then
          [(x + dx, y + dy, fg)]
        else []))

/-- String renderer, trait default `Font::write_string`
(graphics.rs lines 206-210; the inherent `ShinonomeFont::write_string` at
lines 250-254 has the identical body): for `(i, c)` in
`s.chars().enumerate()`, call `write_ascii(writer, i*8 + x, y, c, fg, bg)`. -/
def ShinonomeFont.write_string (self : ShinonomeFont) (x y : Nat) (s : List Char)
    (fg bg : PixelColor) : List PixelEvent :=
  s.enum.flatMap (fun p => self.write_ascii (p.1 * 8 + x) y p.2 fg bg)

end Graphics

namespace Graphics

/-- Helper: a three-write burst at offsets `m, m+1, m+2` is issued in
strictly increasing address order. -/
lemma chain3_lt (m a b c : Nat) :
    List.Chain' (fun u w : ByteWrite => u.1 < w.1) [(m, a), (m + 1, b), (m + 2, c)] := by
  simp [List.chain'_cons]

/-- Helper: offset `m + 3` is not among the offsets of a three-write burst
at `m, m+1, m+2`. -/
lemma notmem3 (m a b c : Nat) :
    m + 3 ∉ ([(m, a), (m + 1, b), (m + 2, c)] : List ByteWrite).map Prod.fst := by
  simp

/-- C1: for valid coordinates and both pixel formats, `draw_pixel` on the
frame buffer descriptor performs exactly the 3 byte writes
`(4*(stride*y+x), 4*(stride*y+x)+1, 4*(stride*y+x)+2)` in increasing
address order, carrying the channels in the format's order (RGB-first:
red, green, blue; BGR-first: blue, green, red); offset
`4*(stride*y+x)+3` is never written. -/
theorem c1_draw_pixel_three_writes (fb : FrameBuffer) (x y : Nat) (color : PixelColor)
    (hx : x < fb.horizontal_resolution) (hy : y < fb.vertical_resolution) :
    (fb.draw_pixel x y color =
      match fb.pixel_format with
      | PixelFormat.PixelRGBResv8BitPerColor =>
          [(4 * (fb.pixel_per_scan_line * y + x), color.red),
           (4 * (fb.pixel_per_scan_line * y + x) + 1, color.green),
           (4 * (fb.pixel_per_scan_line * y + x) + 2, color.blue)]
      | PixelFormat.PixelBGRResv8BitPerColor =>
          [(4 * (fb.pixel_per_scan_line * y + x), color.blue),
           (4 * (fb.pixel_per_scan_line * y + x) + 1, color.green),
           (4 * (fb.pixel_per_scan_line * y + x) + 2, color.red)]) ∧
    List.Chain' (fun a b : ByteWrite => a.1 < b.1) (fb.draw_pixel x y color) ∧
    4 * (fb.pixel_per_scan_line * y + x) + 3 ∉ (fb.draw_pixel x y color).map Prod.fst := by
  obtain ⟨p, h, v, fmt⟩ := fb
  cases fmt
  · exact ⟨rfl, chain3_lt (4 * (p * y + x)) color.red color.green color.blue,
      notmem3 (4 * (p * y + x)) color.red color.green color.blue⟩
  · exact ⟨rfl, chain3_lt (4 * (p * y + x)) color.blue color.green color.red,
      notmem3 (4 * (p * y + x)) color.blue color.green color.red⟩

/-- Witness for C1 at a concrete in-range input. -/
theorem c1_draw_pixel_three_writes_witness :
    1 < (FrameBuffer.mk 7 5 4 PixelFormat.PixelRGBResv8BitPerColor).horizontal_resolution ∧
    2 < (FrameBuffer.mk 7 5 4 PixelFormat.PixelRGBResv8BitPerColor).vertical_resolution ∧
    (FrameBuffer.mk 7 5 4 PixelFormat.PixelRGBResv8BitPerColor).draw_pixel 1 2
      (PixelColor.new 9 8 6) = [(60, 9), (61, 8), (62, 6)] :=
  ⟨by decide, by decide, by
    have h := c1_draw_pixel_three_writes
      (FrameBuffer.mk 7 5 4 PixelFormat.PixelRGBResv8BitPerColor) 1 2
      (PixelColor.new 9 8 6) (by decide) (by decide)
    exact h.1⟩

/-- C2: dispatch on the descriptor's stored format tag and the matching
monomorphic writer wrapping the same descriptor produce byte-identical
write sequences. -/
theorem c2_descriptor_matches_monomorphic_writer (fb : FrameBuffer) (x y : Nat)
    (color : PixelColor) :
    fb.draw_pixel x y color =
      match fb.pixel_format with
      | PixelFormat.PixelRGBResv8BitPerColor =>
          (RGBResv8BitPerColorPixelWriter.new fb).draw_pixel x y color
      | PixelFormat.PixelBGRResv8BitPerColor =>
          (BGRResv8BitPerColorPixelWriter.new fb).draw_pixel x y color := by
  obtain ⟨p, h, v, fmt⟩ := fb
  cases fmt <;> rfl

/-- C7: for the same color, the RGB writer's and the BGR writer's 3-byte
sequences for one pixel are exact reverses of each other; the byte at
channel offset `i` of the RGB sequence equals the byte at channel offset
`2 - i` of the BGR sequence. -/
theorem c7_rgb_bgr_byte_reversal (fb : FrameBuffer) (x y : Nat) (color : PixelColor) :
    (((RGBResv8BitPerColorPixelWriter.new fb).draw_pixel x y color).map Prod.snd).reverse
      = ((BGRResv8BitPerColorPixelWriter.new fb).draw_pixel x y color).map Prod.snd ∧
    ∀ i, i < 3 →
      (((RGBResv8BitPerColorPixelWriter.new fb).draw_pixel x y color).map Prod.snd).getD i 0
        = (((BGRResv8BitPerColorPixelWriter.new fb).draw_pixel x y color).map
            Prod.snd).getD (2 - i) 0 := by
  refine ⟨rfl, ?_⟩
  intro i hi
  interval_cases i <;> rfl

/-- Witness for C7 at a concrete channel offset. -/
theorem c7_rgb_bgr_byte_reversal_witness :
    0 < 3 ∧
    (((RGBResv8BitPerColorPixelWriter.new
        (FrameBuffer.mk 7 5 4 PixelFormat.PixelRGBResv8BitPerColor)).draw_pixel 0 0
        (PixelColor.new 1 2 3)).map Prod.snd).getD 0 0
      = (((BGRResv8BitPerColorPixelWriter.new
        (FrameBuffer.mk 7 5 4 PixelFormat.PixelRGBResv8BitPerColor)).draw_pixel 0 0
        (PixelColor.new 1 2 3)).map Prod.snd).getD 2 0 :=
  ⟨by decide,
    (c7_rgb_bgr_byte_reversal (FrameBuffer.mk 7 5 4 PixelFormat.PixelRGBResv8BitPerColor)
      0 0 (PixelColor.new 1 2 3)).2 0 (by decide)⟩

/-- C5: a character whose code point times 16 is not below the glyph
table's byte length renders nothing: `write_ascii` makes no `draw_pixel`
call and signals no error. -/
theorem c5_write_ascii_out_of_range_noop (f : ShinonomeFont) (x y : Nat) (c : Char)
    (fg bg : PixelColor) (h : 16 * c.toNat ≥ f.font.length) :
    f.write_ascii x y c fg bg = [] := by
  unfold ShinonomeFont.write_ascii
  simp [h]

/-- Witness for C5: the character `A` against an empty glyph table. -/
theorem c5_write_ascii_out_of_range_noop_witness :
    16 * ('A').toNat ≥ (ShinonomeFont.mk []).font.length ∧
    (ShinonomeFont.mk []).write_ascii 0 0 'A' PixelColor.WHITE PixelColor.BLACK = [] :=
  ⟨by decide,
    c5_write_ascii_out_of_range_noop (ShinonomeFont.mk []) 0 0 'A'
      PixelColor.WHITE PixelColor.BLACK (by decide)⟩

/-- Helper: membership in a conditional singleton list. -/
lemma mem_ite_singleton {α : Type} {p : Prop} [Decidable p] {a b : α} :
    (a ∈ if p then [b] else []) ↔ p ∧ a = b := by
  split <;> simp_all

/-- Helper: the `draw_pixel` calls issued by `write_ascii` are exactly the
in-cell positions whose glyph-row bit test succeeds. -/
lemma mem_write_ascii (f : ShinonomeFont) (x y : Nat) (c : Char) (fg bg : PixelColor)
    (e : PixelEvent) :
    e ∈ f.write_ascii x y c fg bg ↔
      16 * c.toNat < f.font.length ∧
      ∃ dy, dy < 16 ∧ ∃ dx, dx < 8 ∧
        ((f.font.getD (16 * c.toNat + dy) 0) <<< dx) % 256 &&& 0x80 > 0 ∧
        e = (x + dx, y + dy, fg) := by
  simp only [ShinonomeFont.write_ascii]
  split
  · next hguard =>
    simp only [List.not_mem_nil, false_iff, not_and]
    intro hlt
    omega
  · next hguard =>
    simp only [List.mem_flatMap, List.mem_range, mem_ite_singleton]
    constructor
    · rintro ⟨dy, hdy, dx, hdx, hcond, heq⟩
      exact ⟨by omega, dy, hdy, dx, hdx, hcond, heq⟩
    · rintro ⟨-, dy, hdy, dx, hdx, hcond, heq⟩
      exact ⟨dy, hdy, dx, hdx, hcond, heq⟩

/-- Helper: the glyph row test `(b << dx) & 0x80 > 0` (with the `u8` shift
wrapping modulo 256) tests exactly bit `7 - dx` of the row byte. -/
lemma shift_mask_testBit : ∀ b < 256, ∀ dx < 8,
    (((b <<< dx) % 256 &&& 0x80 > 0) ↔ Nat.testBit b (7 - dx)) := by decide

/-- C6: for an in-range character (all sixteen glyph-row bytes within the
table), `write_ascii` draws a foreground pixel at `(x+dx, y+dy)` with
`dx < 8`, `dy < 16` iff bit `7 - dx` of the table byte at `16*c + dy` is
set; the `bg` argument has no effect on the output, and background pixels
are never drawn (every call carries the foreground color). -/
theorem c6_write_ascii_foreground_iff_bit (f : ShinonomeFont) (x y : Nat) (c : Char)
    (fg bg bg' : PixelColor)
    (hfont : ∀ b ∈ f.font, b < 256)
    (hlen : 16 * c.toNat + 16 ≤ f.font.length) :
    (∀ dx dy, dx < 8 → dy < 16 →
      (((x + dx, y + dy, fg) : PixelEvent) ∈ f.write_ascii x y c fg bg ↔
        Nat.testBit (f.font.getD (16 * c.toNat + dy) 0) (7 - dx))) ∧
    f.write_ascii x y c fg bg = f.write_ascii x y c fg bg' ∧
    (∀ e ∈ f.write_ascii x y c fg bg, e.2.2 = fg) := by
  refine ⟨?_, rfl, ?_⟩
  · intro dx dy hdx hdy
    have hidx : 16 * c.toNat + dy < f.font.length := by omega
    have hb : f.font.getD (16 * c.toNat + dy) 0 < 256 := by
      rw [List.getD_eq_getElem f.font 0 hidx]
      exact hfont _ (List.getElem_mem hidx)
    rw [mem_write_ascii]
    constructor
    · rintro ⟨-, dy', hdy', dx', hdx', hcond, heq⟩
      simp only [Prod.mk.injEq] at heq
      obtain ⟨h2, h3, -⟩ := heq
      have hdx2 : dx' = dx := by omega
      have hdy2 : dy' = dy := by omega
      rw [hdx2, hdy2] at hcond
      exact (shift_mask_testBit _ hb dx hdx).mp hcond
    · intro ht
      exact ⟨by omega, dy, hdy, dx, hdx, (shift_mask_testBit _ hb dx hdx).mpr ht, rfl⟩
  · intro e he
    rw [mem_write_ascii] at he
    obtain ⟨-, dy, -, dx, -, -, rfl⟩ := he
    rfl

/-- Witness for C6: glyph 0 of a one-glyph table whose first row byte is
`0x80`, so the pixel at the cell origin is drawn. -/
theorem c6_write_ascii_foreground_iff_bit_witness :
    ((0 + 0, 0 + 0, PixelColor.WHITE) : PixelEvent) ∈
      (ShinonomeFont.mk (128 :: List.replicate 15 0)).write_ascii 0 0 (Char.ofNat 0)
        PixelColor.WHITE PixelColor.BLACK := by
  have h := (c6_write_ascii_foreground_iff_bit
    (ShinonomeFont.mk (128 :: List.replicate 15 0)) 0 0 (Char.ofNat 0)
    PixelColor.WHITE PixelColor.BLACK PixelColor.RED
    (by decide) (by decide)).1 0 0 (by decide) (by decide)
  exact h.mpr (by decide)

/-- C10: `write_ascii` only ever draws inside the 8-by-16 glyph cell at
`(x, y)`: every `draw_pixel` call is at `(x+dx, y+dy)` with `dx < 8`,
`dy < 16`, and carries the foreground color. -/
theorem c10_write_ascii_stays_in_cell (f : ShinonomeFont) (x y : Nat) (c : Char)
    (fg bg : PixelColor) :
    ∀ e ∈ f.write_ascii x y c fg bg,
      ∃ dx dy, dx < 8 ∧ dy < 16 ∧ e = (x + dx, y + dy, fg) := by
  intro e he
  rw [mem_write_ascii] at he
  obtain ⟨-, dy, hdy, dx, hdx, -, rfl⟩ := he
  exact ⟨dx, dy, hdx, hdy, rfl⟩

/-- Witness for C10 at a concrete drawn pixel. -/
theorem c10_write_ascii_stays_in_cell_witness :
    ∃ dx dy, dx < 8 ∧ dy < 16 ∧
      (((0 : Nat), (0 : Nat), PixelColor.WHITE) : PixelEvent)
        = (0 + dx, 0 + dy, PixelColor.WHITE) :=
  c10_write_ascii_stays_in_cell (ShinonomeFont.mk (128 :: List.replicate 15 0))
    0 0 (Char.ofNat 0) PixelColor.WHITE PixelColor.BLACK
    (0, 0, PixelColor.WHITE) (by decide)

/-- Helper: flat-mapping over an enumeration from `n` is concatenating the
images of `(n + i, s.get i)` in index order. -/
lemma enumFrom_flatMap_eq {α β : Type} (g : Nat × α → List β) :
    ∀ (s : List α) (n : Nat),
      (List.enumFrom n s).flatMap g
        = (List.ofFn (fun i : Fin s.length => g (n + i.val, s.get i))).flatten := by
  intro s
  induction s with
  | nil => intro n; simp
  | cons a as ih =>
    intro n
    rw [show List.enumFrom n (a :: as) = (n, a) :: List.enumFrom (n + 1) as from rfl]
    rw [List.flatMap_cons, ih (n + 1), List.ofFn_succ, List.flatten_cons]
    have h : ∀ m : Nat, n + 1 + m = n + (m + 1) := by omega
    simp [h]

/-- C8: `write_string` renders the i-th character of the string via
`write_ascii` at `(x + 8*i, y)`, a fixed 8-pixel advance with no wrapping
and no kerning, and its output is the concatenation of those calls in
order. -/
theorem c8_write_string_fixed_advance (f : ShinonomeFont) (x y : Nat) (s : List Char)
    (fg bg : PixelColor) :
    f.write_string x y s fg bg =
      (List.ofFn (fun i : Fin s.length =>
        f.write_ascii (x + 8 * i.val) y (s.get i) fg bg)).flatten := by
  have h := enumFrom_flatMap_eq (fun p => f.write_ascii (p.1 * 8 + x) y p.2 fg bg) s 0
  have h2 : ∀ m : Nat, (0 + m) * 8 + x = x + 8 * m := by intro m; omega
  calc f.write_string x y s fg bg
      = (List.enumFrom 0 s).flatMap (fun p => f.write_ascii (p.1 * 8 + x) y p.2 fg bg) := rfl
    _ = _ := by rw [h]; simp only [h2]

/-- Counterexample to C3 as stated: the far corner `(10, 10)` lies on both
far border lines of the 11-by-11 rectangle, yet
`draw_rect(origin=(0,0), size=(10,10), WHITE)` never draws it, so the four
border lines are not drawn in full. -/
theorem c3_draw_rect_counterexample :
    ¬ (∀ px py : Nat, px ≤ 10 → py ≤ 10 →
        (px = 0 ∨ px = 10 ∨ py = 0 ∨ py = 10) →
        ((px, py, PixelColor.WHITE) : PixelEvent) ∈
          PixelWriter.draw_rect (Vector2D.mk 0 0) (Vector2D.mk 10 10) PixelColor.WHITE) := by
  intro h
  exact absurd (h 10 10 (by decide) (by decide) (by decide)) (by decide)

/-- C3 (amended): `draw_rect(pos, size, color)` draws, with the given
color, exactly the border pixels of the `(size.x+1)`-by-`(size.y+1)`
rectangle spanning `pos` to `pos + size` inclusive, except the far corner
`(pos.x + size.x, pos.y + size.y)`, which is never drawn.  In particular
`draw_rect((0,0), (10,10), WHITE)` writes border pixels on each of the
lines `x = 0`, `x = 10`, `y = 0` and `y = 10`. -/
theorem c3_draw_rect_border_amended (pos size : Vector2D) (color : PixelColor)
    (px py : Nat) (c : PixelColor) :
    ((px, py, c) : PixelEvent) ∈ PixelWriter.draw_rect pos size color ↔
      (c = color ∧ pos.x ≤ px ∧ px ≤ pos.x + size.x ∧ pos.y ≤ py ∧ py ≤ pos.y + size.y ∧
        (px = pos.x ∨ px = pos.x + size.x ∨ py = pos.y ∨ py = pos.y + size.y) ∧
        ¬(px = pos.x + size.x ∧ py = pos.y + size.y)) := by
  simp only [PixelWriter.draw_rect, List.mem_append, List.mem_flatMap, List.mem_range,
    List.mem_cons, List.mem_singleton, List.not_mem_nil, or_false, Prod.mk.injEq]
  constructor
  · rintro (⟨dx, hdx, (⟨h1, h2, h3⟩ | ⟨h1, h2, h3⟩)⟩ |
      ⟨dy, hdy, (⟨h1, h2, h3⟩ | ⟨h1, h2, h3⟩)⟩) <;>
      subst h3 <;> refine ⟨rfl, ?_⟩ <;> omega
  · rintro ⟨rfl, h1, h2, h3, h4, h5, h6⟩
    by_cases hpx : px = pos.x + size.x
    · exact Or.inr ⟨py - pos.y, by omega, Or.inr ⟨by omega, by omega, rfl⟩⟩
    · by_cases hpy : py = pos.y + size.y
      · exact Or.inl ⟨px - pos.x, by omega, Or.inr ⟨by omega, by omega, rfl⟩⟩
      · rcases h5 with h | h | h | h
        · exact Or.inr ⟨py - pos.y, by omega, Or.inl ⟨by omega, by omega, rfl⟩⟩
        · exact absurd h hpx
        · exact Or.inl ⟨px - pos.x, by omega, Or.inl ⟨by omega, by omega, rfl⟩⟩
        · exact absurd h hpy

/-- Helper: the pixels covered by `fill_rect`. -/
lemma mem_fill_rect (pos size : Vector2D) (color : PixelColor) (px py : Nat)
    (c : PixelColor) :
    ((px, py, c) : PixelEvent) ∈ PixelWriter.fill_rect pos size color ↔
      (c = color ∧ pos.x ≤ px ∧ px < pos.x + size.x ∧ pos.y ≤ py ∧ py < pos.y + size.y) := by
  simp only [PixelWriter.fill_rect, List.mem_flatMap, List.mem_range, List.mem_map,
    Prod.mk.injEq]
  constructor
  · rintro ⟨dy, hdy, dx, hdx, h1, h2, h3⟩
    subst h3
    exact ⟨rfl, by omega⟩
  · rintro ⟨rfl, h1, h2, h3, h4⟩
    exact ⟨py - pos.y, by omega, px - pos.x, by omega, by omega, by omega, rfl⟩

/-- Helper: `fill_rect` never repeats a `draw_pixel` call. -/
lemma nodup_fill_rect (pos size : Vector2D) (color : PixelColor) :
    (PixelWriter.fill_rect pos size color).Nodup := by
  rw [PixelWriter.fill_rect, List.nodup_flatMap]
  constructor
  · intro dy hdy
    refine List.Nodup.map ?_ (List.nodup_range size.x)
    intro a b hab
    simpa using congrArg (fun e : PixelEvent => e.1) hab
  · refine List.Pairwise.imp ?_ (List.pairwise_lt_range size.y)
    intro dy1 dy2 hlt
    intro e he1 he2
    simp only [List.mem_map, List.mem_range] at he1 he2
    obtain ⟨dx1, hx1, rfl⟩ := he1
    obtain ⟨dx2, hx2, h⟩ := he2
    have h2 := congrArg (fun e : PixelEvent => e.2.1) h
    simp only at h2
    omega

/-- Helper: `List.count` does not depend on which of two pointwise-equal
`BEq` instances is in scope. -/
lemma count_congr {α : Type} (i1 i2 : BEq α)
    (h : ∀ a b : α, @BEq.beq _ i1 a b = @BEq.beq _ i2 a b) (a : α) :
    ∀ l : List α, @List.count _ i1 a l = @List.count _ i2 a l := by
  intro l
  induction l with
  | nil => rfl
  | cons b bs ih =>
    rw [@List.count_cons _ i1, @List.count_cons _ i2, ih, h b a]

/-- Helper: the product `BEq` on pixel events agrees with the
decidable-equality one. -/
lemma pixelEvent_beq_bridge :
    ∀ a b : PixelEvent, (a == b) = @BEq.beq _ (instBEqOfDecidableEq) a b := by
  intro a b
  have h2 : @BEq.beq _ (instBEqOfDecidableEq) a b = decide (a = b) := rfl
  rw [h2]
  rcases Bool.eq_false_or_eq_true (a == b) with h | h
  · simp at h
    simp [h]
  · simp at h
    simp [h]

/-- C4: `fill_rect(origin, size, color)` invokes `draw_pixel` with the
given color exactly once for each pixel `(origin.x+dx, origin.y+dy)` with
`dx < size.x`, `dy < size.y`, and every call it makes is at such a pixel
(no pixel outside the range is touched). -/
theorem c4_fill_rect_each_pixel_once (pos size : Vector2D) (color : PixelColor)
    (px py : Nat) :
    ((PixelWriter.fill_rect pos size color).count ((px, py, color) : PixelEvent) =
      if pos.x ≤ px ∧ px < pos.x + size.x ∧ pos.y ≤ py ∧ py < pos.y + size.y
      then 1 else 0) ∧
    (∀ e ∈ PixelWriter.fill_rect pos size color,
      ∃ dx dy, dx < size.x ∧ dy < size.y ∧ e = (pos.x + dx, pos.y + dy, color)) := by
  constructor
  · rw [count_congr _ (instBEqOfDecidableEq) pixelEvent_beq_bridge,
      List.count_eq_of_nodup (nodup_fill_rect pos size color)]
    simp only [mem_fill_rect, true_and]
  · intro e he
    obtain ⟨epx, epy, ec⟩ := e
    obtain ⟨rfl, h1, h2, h3, h4⟩ := (mem_fill_rect pos size color epx epy ec).mp he
    refine ⟨epx - pos.x, epy - pos.y, by omega, by omega, ?_⟩
    simp only [Prod.mk.injEq]
    exact ⟨by omega, by omega, trivial⟩

/-- Witness for C4: the `(2,3)`-`(6,8)` example pixel `(2,3)` is drawn
exactly once and lies in the covered range. -/
theorem c4_fill_rect_each_pixel_once_witness :
    ((PixelWriter.fill_rect (Vector2D.mk 2 3) (Vector2D.mk 4 5) PixelColor.RED).count
      ((2, 3, PixelColor.RED) : PixelEvent) = 1) ∧
    (∃ dx dy, dx < 4 ∧ dy < 5 ∧
      ((2, 3, PixelColor.RED) : PixelEvent) = (2 + dx, 3 + dy, PixelColor.RED)) := by
  have h := c4_fill_rect_each_pixel_once (Vector2D.mk 2 3) (Vector2D.mk 4 5)
    PixelColor.RED 2 3
  exact ⟨h.1.trans (if_pos (by decide)), h.2 (2, 3, PixelColor.RED) (by decide)⟩

end Graphics
